import Mathlib

/-!
Verification of the conversation-state and artifact-extraction pipeline of the
claude-artifacts-automation repository.  Python strings are embedded as lists of
characters (`Str`), Python dictionaries as Lean structures, and the mutable
global `conversation_state` as explicit state passing.  The external model call
(`AnthropicClient.send_message`) is a function parameter returning `Except`,
mirroring a call that either returns a response object or raises.
-/

/-- Python `str` is embedded as a list of characters. -/
abbrev Str := List Char

/-- Conversion of a Lean string literal into the embedding. -/
def lit (s : String) : Str := s.toList

/-- Python whitespace (`str.strip` default set and regex `\s`), ASCII part. -/
def wsChar (c : Char) : Bool :=
  c == ' ' || c == '\t' || c == '\n' || c == '\r' || c == '\x0b' || c == '\x0c'

/-- `startsW s b` holds when `s` is a prefix of `b` (Python `b.startswith(s)`). -/
def startsW : Str → Str → Bool
  | [], _ => true
  | _ :: _, [] => false
  | c :: s, d :: b => c == d && startsW s b

/-- Python substring test `s in b`. -/
def hasSub (s : Str) : Str → Bool
  | [] => startsW s []
  | d :: b => startsW s (d :: b) || hasSub s b

/-- The substring relation, specification side: `s` occurs contiguously in `b`. -/
def OccursIn (s b : Str) : Prop := ∃ p q, b = p ++ s ++ q

/-- Python `str.lstrip()`. -/
def trimLeft (l : Str) : Str := l.dropWhile wsChar

/-- Python `str.rstrip()`. -/
def trimRight (l : Str) : Str := (l.reverse.dropWhile wsChar).reverse

/-- Python `str.strip()`. -/
def strip (l : Str) : Str := trimRight (trimLeft l)

/-- Python `str.lower()` (ASCII). -/
def lowerStr (l : Str) : Str := l.map Char.toLower

/-- Concatenation of a list of strings. -/
def joinAll : List Str → Str
  | [] => []
  | s :: r => s ++ joinAll r

/-- Python `enumerate`, with a starting index. -/
def pyEnumFrom : Nat → List α → List (Nat × α)
  | _, [] => []
  | n, x :: xs => (n, x) :: pyEnumFrom (n + 1) xs

/-- Python `enumerate(l)`. -/
def pyEnum (l : List α) : List (Nat × α) := pyEnumFrom 0 l

/-- The decimal digit character of `d` (`d < 10`). -/
def digitChar (d : Nat) : Char := Char.ofNat (48 + d)

/-- Decimal rendering of a natural number, with fuel (`n + 1` always suffices,
since the significand shrinks by a factor of ten each step). -/
def natToStrAux : Nat → Nat → Str → Str
  | 0, _, acc => acc
  | fuel + 1, n, acc =>
    if n < 10 then digitChar n :: acc
    else natToStrAux fuel (n / 10) (digitChar (n % 10) :: acc)

/-- Python `f"{n}"` for a natural number `n`. -/
def natToStr (n : Nat) : Str := natToStrAux (n + 1) n []

/-- Decimal parsing fold, used only to prove `natToStr` injective. -/
def parseFold : Nat → Str → Nat
  | a, [] => a
  | a, c :: r => parseFold (a * 10 + (c.toNat - 48)) r

/-- Word count of Python `len(s.split())`: maximal whitespace-separated runs. -/
def countWordsAux : Str → Bool → Nat
  | [], _ => 0
  | c :: r, inWord =>
    if wsChar c then countWordsAux r false
    else (if inWord then 0 else 1) + countWordsAux r true

/-- `len(s.split())`. -/
def countWords (s : Str) : Nat := countWordsAux s false

/-! ## Data model: `conversation_state` and the model response -/

/-- Message roles; the notebook only ever records `user` and `assistant`. -/
inductive Role
  | user
  | assistant
deriving DecidableEq

/-- One entry of `conversation_state["messages"]`. -/
structure Message where
  role : Role
  content : Str
deriving DecidableEq

/-- The global `conversation_state` dictionary of the notebook. -/
structure ConversationState where
  messages : List Message
  summary : Str
  shared_files : List Str
  last_updated : Str
deriving DecidableEq

/-- The initial conversation state built in Cell 2 at time `now`. -/
def emptyConversationState (now : Str) : ConversationState :=
  { messages := [], summary := [], shared_files := [], last_updated := now }

/-- One block of `response.content` from the Anthropic API. -/
structure ContentBlock where
  type : Str
  text : Str
deriving DecidableEq

/-- The response object returned by `client.send_message`. -/
structure ApiResponse where
  id : Str
  model : Str
  content : List ContentBlock
deriving DecidableEq

/-- Errors raised by the model call (`send_message` re-raises after logging). -/
abbrev Err := Str

/-- The dictionary returned by `ask_claude`. -/
structure AskResult where
  message_id : Str
  model : Str
  content : Str
  tokens_used : Nat
deriving DecidableEq

/-- Rendering of one history message inside a composed prompt:
`f"{'Human' if msg['role'] == 'user' else 'Assistant'}: {msg['content']}\n\n"`. -/
def renderMsg (m : Message) : Str :=
  (match m.role with
   | .user => lit "Human"
   | .assistant => lit "Assistant") ++ lit ": " ++ m.content ++ lit "\n\n"

/-- Text extraction from the response blocks (lines 71-74 of the notebook):
concatenates the `text` of every block whose `type` is `"text"`. -/
def extractText (r : ApiResponse) : Str :=
  r.content.foldl (fun acc b => if b.type == lit "text" then acc ++ b.text else acc) []

/-- Prompt assembly of `ask_claude` (lines 44-63).  The Python loop
`for i in range(max(0, len(messages)-6), len(messages))` visits exactly the
suffix `messages.drop (messages.length - 6)` (natural subtraction), in order. -/
def composePrompt (st : ConversationState) (prompt : Str)
    (include_history include_summary : Bool) : Str :=
  let fp0 : Str := []
  let fp1 := if include_summary && !st.summary.isEmpty then
      fp0 ++ lit "# Previous Conversation Summary\n" ++ st.summary ++ lit "\n\n"
    else fp0
  let fp2 := if include_history && !st.messages.isEmpty then
      ((st.messages.drop (st.messages.length - 6)).foldl
        (fun acc m => acc ++ renderMsg m) (fp1 ++ lit "# Previous Messages\n"))
        ++ lit "# New Question\n"
    else fp1
  fp2 ++ prompt

/-- `ask_claude` (Cell 3).  `send` is the external `client.send_message`; an
exception from it propagates before any mutation of the state, so the error
branch returns the state unchanged.  On success the two appends of lines 77-78
and the `last_updated` refresh of line 79 are performed. -/
def ask_claude (send : Str → Nat → Except Err ApiResponse) (st : ConversationState)
    (prompt : Str) (include_history include_summary : Bool) (max_tokens : Nat)
    (now : Str) : ConversationState × Except Err AskResult :=
  let full_prompt := composePrompt st prompt include_history include_summary
  match send full_prompt max_tokens with
  | .error e => (st, .error e)
  | .ok response =>
    let text_content := extractText response
    let st' := { st with
      messages := st.messages ++ [⟨.user, prompt⟩, ⟨.assistant, text_content⟩],
      last_updated := now }
    (st', .ok { message_id := response.id, model := response.model,
                content := text_content, tokens_used := countWords full_prompt / 3 })

/-! ## Artifact extraction (`extract_markdown`, Cell 4)

The two regular-expression passes of the source are embedded as deterministic
scanners.  Both regexes are deterministic on every input: the optional
`markdown` tag, the greedy `\s*`, and the lazy bodies never need global
backtracking, because whitespace contains no backtick and the stop pattern of
each lazy group is located independently of the group start.  The scanners
carry fuel; one unit is spent per scan position, and every step consumes at
least one character of the remaining text, so `length + 1` fuel is exhaustive. -/

/-- The opening and closing fence of the first regex. -/
def fenceTok : Str := lit "```"

/-- The optional tag of the first regex. -/
def mdTag : Str := lit "markdown"

/-- Splits `b` at the first occurrence of `pat`: `some (before, after)` with
`b = before ++ pat ++ after`, or `none` if `pat` does not occur. -/
def splitFirst (pat : Str) : Str → Option (Str × Str)
  | [] => if startsW pat [] then some ([], []) else none
  | d :: b =>
    if startsW pat (d :: b) then some ([], (d :: b).drop pat.length)
    else
      match splitFirst pat b with
      | some (p, r) => some (d :: p, r)
      | none => none

/-- Scanner for `re.findall(r'```(?:markdown)?\s*([\s\S]*?)```', text)`.
At each position: a match needs an opening fence, takes the literal
`markdown` when present, skips greedy whitespace, and captures lazily up to
the first closing fence; on failure the scan advances one character, exactly
as `re.findall` retries at the next start position. -/
def findCodeBlocksAux : Nat → Str → List Str
  | 0, _ => []
  | _ + 1, [] => []
  | fuel + 1, c :: t' =>
    if startsW fenceTok (c :: t') then
      let r0 := (c :: t').drop 3
      let r1 := if startsW mdTag r0 then r0.drop 8 else r0
      let r2 := r1.dropWhile wsChar
      match splitFirst fenceTok r2 with
      | some (pre, rest) => pre :: findCodeBlocksAux fuel rest
      | none => findCodeBlocksAux fuel t'
    else findCodeBlocksAux fuel t'

/-- `code_blocks = re.findall(r'```(?:markdown)?\s*([\s\S]*?)```', response_text)`. -/
def findCodeBlocks (t : Str) : List Str := findCodeBlocksAux (t.length + 1) t

/-- The body stop pattern `\n# ` of the heading lookahead. -/
def nlHashSp : Str := lit "\n# "

/-- Lazy body capture `([\s\S]*?)(?=(?:\n# |$))`: grows until the lookahead
matches, where without `re.M` the `$` matches at the end of the string or just
before a final trailing newline.  Returns the body and the remaining suffix. -/
def takeBody : Str → Str × Str
  | [] => ([], [])
  | c :: w =>
    if startsW nlHashSp (c :: w) then ([], c :: w)
    else if c == '\n' && w.isEmpty then ([], c :: w)
    else
      let (b, r) := takeBody w
      (c :: b, r)

/-- Heading line `(.*?)(?:\n|$)` and body, given the suffix after `# `:
the heading runs to the first newline (consumed) or to the end of the text. -/
def matchHeading (u : Str) : Str × Str × Str :=
  let hd := u.takeWhile (fun c => c != '\n')
  let v := u.drop (hd.length + 1)
  let (bd, r) := takeBody v
  (hd, bd, r)

/-- Scanner for
`re.findall(r'(?:^|\n)# (.*?)(?:\n|$)([\s\S]*?)(?=(?:\n# |$))', text)`.
`first` records whether the scan position is the start of the string, where
the zero-width `^` alternative applies; elsewhere a match consumes a newline. -/
def findHeadingBlocksAux : Nat → Str → Bool → List (Str × Str)
  | 0, _, _ => []
  | fuel + 1, t, first =>
    if first && startsW (lit "# ") t then
      let (hd, bd, r) := matchHeading (t.drop 2)
      (hd, bd) :: findHeadingBlocksAux fuel r false
    else
      match t with
      | [] => []
      | '\n' :: t' =>
        if startsW (lit "# ") t' then
          let (hd, bd, r) := matchHeading (t'.drop 2)
          (hd, bd) :: findHeadingBlocksAux fuel r false
        else findHeadingBlocksAux fuel t' false
      | _ :: t' => findHeadingBlocksAux fuel t' false

/-- `heading_blocks = re.findall(r'(?:^|\n)# (.*?)(?:\n|$)([\s\S]*?)(?=(?:\n# |$))', response_text)`. -/
def findHeadingBlocks (t : Str) : List (Str × Str) :=
  findHeadingBlocksAux (t.length + 1) t true

/-- Artifact type tags used by `extract_markdown`. -/
inductive ArtifactType
  | markdown_code_block
  | markdown_section
deriving DecidableEq

/-- An artifact dictionary; `heading` is present only on section artifacts. -/
structure Artifact where
  type : ArtifactType
  content : Str
  heading : Option Str
  index : Nat
deriving DecidableEq

/-- The dictionary appended for a fenced block (lines 100-105). -/
def mkCodeArtifact (block : Str) (i : Nat) : Artifact :=
  { type := .markdown_code_block, content := strip block, heading := none, index := i }

/-- The dictionary appended for a heading section (lines 108-116). -/
def mkSectionArtifact (heading content : Str) (i : Nat) : Artifact :=
  { type := .markdown_section,
    content := lit "# " ++ strip heading ++ lit "\n\n" ++ strip content,
    heading := some (strip heading), index := i }

/-- `extract_markdown` (lines 89-118): both passes, fenced artifacts first,
then every heading section whose stripped body is not a substring of some raw
fenced capture. -/
def extract_markdown (response_text : Str) : List Artifact :=
  let code_blocks := findCodeBlocks response_text
  let heading_blocks := findHeadingBlocks response_text
  (pyEnum code_blocks).map (fun p => mkCodeArtifact p.2 p.1)
    ++ ((pyEnum heading_blocks).filter
          (fun p => !(code_blocks.any (fun block => hasSub (strip p.2.2) block)))).map
        (fun p => mkSectionArtifact p.2.1 p.2.2 p.1)

/-! ## Saving artifacts (`save_artifact`, Cell 4) -/

/-- `os.path.join(folder, name)` for a folder without trailing separator. -/
def pathJoin (folder name : Str) : Str := folder ++ '/' :: name

/-- Base-name derivation of `save_artifact` (lines 127-132): with a heading,
keep alphanumerics and `" -_"` and turn every other character into `_`, then
replace spaces by underscores and lower-case; otherwise `artifact_<index>`. -/
def artifact_basename (a : Artifact) : Str :=
  match a.type, a.heading with
  | .markdown_section, some h =>
    let filename := h.map (fun c =>
      if c.isAlphanum || c == ' ' || c == '-' || c == '_' then c else '_')
    (filename.map (fun c => if c == ' ' then '_' else c)).map Char.toLower
  | _, _ => lit "artifact_" ++ natToStr a.index

/-- Modelled from the claim wording of C3, for comparison with the source:
keep only alphanumerics, spaces, hyphens and underscores while DISCARDING all
other characters, then replace spaces with underscores and lower-case. -/
def spec_basename (heading : Str) : Str :=
  ((heading.filter (fun c =>
      c.isAlphanum || c == ' ' || c == '-' || c == '_')).map
    (fun c => if c == ' ' then '_' else c)).map Char.toLower

/-- The collision candidate `os.path.join(folder, f"{filename}_{counter}.md")`. -/
def candName (stem : Str) (k : Nat) : Str := stem ++ '_' :: natToStr k ++ lit ".md"

/-- The `while os.path.exists(final_filename)` loop of lines 137-141, with
fuel; `taken.length + 1` fuel always reaches a free name, because the
candidates are pairwise distinct and the disk is finite. -/
def resolveLoop (taken : List Str) (folder stem : Str) : Nat → Nat → Str
  | _, 0 => []
  | counter, fuel + 1 =>
    let cand := pathJoin folder (candName stem counter)
    if cand ∈ taken then resolveLoop taken folder stem (counter + 1) fuel else cand

/-- Filename resolution of `save_artifact` (lines 135-141): the disk is the
list `taken` of existing paths. -/
def resolve_filename (taken : List Str) (folder stem : Str) : Str :=
  let base_filename := pathJoin folder (stem ++ lit ".md")
  if base_filename ∈ taken then resolveLoop taken folder stem 1 (taken.length + 1)
  else base_filename

/-- `save_artifact` (lines 120-147): resolves the destination path and writes
the file, which adds the path to the disk.  Directory creation is a no-op in
the disk model. -/
def save_artifact (taken : List Str) (a : Artifact) (folder : Str) :
    Str × List Str :=
  let final_filename := resolve_filename taken folder (artifact_basename a)
  (final_filename, final_filename :: taken)

/-- One export run: saving a list of artifacts in order, threading the disk;
returns the resolved destination paths in creation order. -/
def runExport (folder : Str) : List Artifact → List Str → List Str
  | [], _ => []
  | a :: arts, taken =>
    let (p, taken1) := save_artifact taken a folder
    p :: runExport folder arts taken1

/-- The destination path the collision policy produces for the `j`-th
artifact of a clean-disk export run whose artifacts share one base name:
`base.md` first, then `base_1.md`, `base_2.md`, and so on. -/
def expectedName (folder stem : Str) (j : Nat) : Str :=
  if j = 0 then pathJoin folder (stem ++ lit ".md")
  else pathJoin folder (candName stem j)

/-! ## Shared-file tracking, state persistence, summarization (Cells 5-6) -/

/-- The shared-file tracking step of `share_files_with_claude` (lines 213-215):
append the path only when it is not already tracked. -/
def trackSharedFile (files : List Str) (path : Str) : List Str :=
  if path ∈ files then files else files ++ [path]

/-- `load_conversation_state` (lines 261-269).  The file system is modelled as
`Option ConversationState`: `some st` is a readable state file, `none` is an
absent file.  On `FileNotFoundError` the handler only prints a notice; the
global `conversation_state` is left as it was. -/
def load_conversation_state (current : ConversationState)
    (file : Option ConversationState) : ConversationState :=
  match file with
  | some st => st
  | none => current

/-- The summarization request template of `generate_conversation_summary`
(lines 229-244), rendering the entire message history. -/
def summaryPromptOf (st : ConversationState) : Str :=
  let recent_convo := st.messages.foldl (fun acc m => acc ++ renderMsg m) []
  lit "\nPlease provide a concise summary of our conversation so far. Focus on:\n1. The main project goal (Claude Artifacts Automation)\n2. Current progress and implementation details\n3. Key decisions made\n4. Current issues or questions being addressed\n\nHere\x27s the conversation to summarize:\n\n"
    ++ recent_convo ++ lit "\n"

/-- `generate_conversation_summary` (lines 222-253): with fewer than two
messages it reports a no-op; otherwise it routes the summary request through
`ask_claude` with history and summary inclusion off (default `max_tokens`),
then overwrites `summary` with the response content. -/
def generate_conversation_summary (send : Str → Nat → Except Err ApiResponse)
    (st : ConversationState) (now : Str) :
    ConversationState × Except Err (Option Str) :=
  if st.messages.length < 2 then (st, .ok none)
  else
    let summary_prompt := summaryPromptOf st
    match ask_claude send st summary_prompt false false 1000 now with
    | (st1, .error e) => (st1, .error e)
    | (st1, .ok r) => ({ st1 with summary := r.content }, .ok (some r.content))

/-! ## Firestore search (`search_artifacts_by_content`) -/

/-- An artifact document in the store; `content` is `none` when the document
has no `content` field. -/
structure StoredArtifact where
  aid : Str
  content : Option Str
deriving DecidableEq

/-- A conversation document with its `artifacts` subcollection. -/
structure StoredConversation where
  cid : Str
  arts : List StoredArtifact
deriving DecidableEq

/-- A search result: the artifact document with `conversation_id` attached. -/
structure SearchHit where
  conversation_id : Str
  artifact : StoredArtifact
deriving DecidableEq

/-- Inner loop of `search_artifacts_by_content` (lines 183-195): scans the
artifacts of one conversation; the Bool is the early `return` triggered when
`len(results) >= limit` right after a match is appended. -/
def scanArtifacts (term : Str) (limit : Nat) (cid : Str) :
    List StoredArtifact → List SearchHit → List SearchHit × Bool
  | [], results => (results, false)
  | a :: rest, results =>
    match a.content with
    | none => scanArtifacts term limit cid rest results
    | some ct =>
      if hasSub term (lowerStr ct) then
        let results1 := results ++ [⟨cid, a⟩]
        if limit ≤ results1.length then (results1, true)
        else scanArtifacts term limit cid rest results1
      else scanArtifacts term limit cid rest results

/-- Outer loop over all conversation documents (line 177). -/
def scanConversations (term : Str) (limit : Nat) :
    List StoredConversation → List SearchHit → List SearchHit
  | [], results => results
  | c :: rest, results =>
    match scanArtifacts term limit c.cid c.arts results with
    | (results1, true) => results1
    | (results1, false) => scanConversations term limit rest results1

/-- `search_artifacts_by_content` (lines 159-197): lower-cases the term and
scans every conversation and artifact, stopping at `limit` matches. -/
def search_artifacts_by_content (store : List StoredConversation)
    (search_term : Str) (limit : Nat) : List SearchHit :=
  scanConversations (lowerStr search_term) limit store []

/-! ## Exchanges for the message-count accounting of claim C6 -/

/-- One successful exchange: the prompt and the response the model returns. -/
structure Exchange where
  prompt : Str
  resp : ApiResponse
  ih : Bool
  isum : Bool
  mt : Nat
  now : Str
deriving DecidableEq

/-- The state after a successful `ask_claude` call for exchange `e`. -/
def runExchange (st : ConversationState) (e : Exchange) : ConversationState :=
  (ask_claude (fun _ _ => .ok e.resp) st e.prompt e.ih e.isum e.mt e.now).1

/-- The state after a sequence of successful exchanges. -/
def runExchanges (st : ConversationState) (es : List Exchange) : ConversationState :=
  es.foldl runExchange st

/-! ## Helper lemmas: substrings, stripping, enumeration -/

theorem startsW_iff (s b : Str) : startsW s b = true ↔ ∃ q, b = s ++ q := by
  induction s generalizing b with
  | nil => simp [startsW]
  | cons c s ih =>
    cases b with
    | nil => simp [startsW]
    | cons d b' =>
      simp only [startsW, Bool.and_eq_true, beq_iff_eq]
      constructor
      · rintro ⟨rfl, h⟩
        obtain ⟨q, rfl⟩ := (ih b').mp h
        exact ⟨q, rfl⟩
      · rintro ⟨q, h⟩
        injection h with h1 h2
        exact ⟨h1.symm, (ih b').mpr ⟨q, h2⟩⟩

theorem hasSub_iff (s b : Str) : hasSub s b = true ↔ OccursIn s b := by
  induction b with
  | nil =>
    simp only [hasSub, OccursIn]
    rw [startsW_iff]
    constructor
    · rintro ⟨q, h⟩
      exact ⟨[], q, h⟩
    · rintro ⟨p, q, h⟩
      obtain ⟨hp, hq⟩ := List.append_eq_nil.mp h.symm
      obtain ⟨hp2, hs⟩ := List.append_eq_nil.mp hp
      exact ⟨q, by simp [hs, hq]⟩
  | cons d b' ih =>
    simp only [hasSub, Bool.or_eq_true]
    rw [startsW_iff, ih]
    constructor
    · rintro (⟨q, h⟩ | ⟨p, q, h⟩)
      · exact ⟨[], q, by simpa using h⟩
      · exact ⟨d :: p, q, by simp [h]⟩
    · rintro ⟨p, q, h⟩
      cases p with
      | nil => exact Or.inl ⟨q, by simpa using h⟩
      | cons e p' =>
        injection h with h1 h2
        exact Or.inr ⟨p', q, h2⟩

theorem occursIn_rev {s b : Str} (h : OccursIn s b) :
    OccursIn s.reverse b.reverse := by
  obtain ⟨p, q, rfl⟩ := h
  exact ⟨q.reverse, p.reverse, by simp⟩

theorem dropWhile_head_false {p : Char → Bool} :
    ∀ {l : Str} {c : Char} {r : Str}, l.dropWhile p = c :: r → p c = false := by
  intro l
  induction l with
  | nil => intro c r h; simp [List.dropWhile] at h
  | cons d l ih =>
    intro c r h
    by_cases hd : p d = true
    · rw [List.dropWhile_cons, if_pos hd] at h
      exact ih h
    · rw [List.dropWhile_cons, if_neg hd] at h
      injection h with h1 _
      rw [← h1]
      exact Bool.eq_false_iff.mpr hd

theorem trimRight_prefix (m : Str) : ∃ q, m = trimRight m ++ q := by
  refine ⟨(m.reverse.takeWhile wsChar).reverse, ?_⟩
  have h : m.reverse = m.reverse.takeWhile wsChar ++ m.reverse.dropWhile wsChar :=
    (List.takeWhile_append_dropWhile wsChar m.reverse).symm
  calc m = m.reverse.reverse := (List.reverse_reverse m).symm
    _ = (m.reverse.takeWhile wsChar ++ m.reverse.dropWhile wsChar).reverse := by rw [← h]
    _ = trimRight m ++ (m.reverse.takeWhile wsChar).reverse := by
        rw [List.reverse_append]; rfl

theorem occursIn_trimLeft {a : Char} {s b : Str} (ha : wsChar a = false)
    (h : OccursIn (a :: s) b) : OccursIn (a :: s) (trimLeft b) := by
  obtain ⟨p, q, rfl⟩ := h
  unfold trimLeft
  induction p with
  | nil =>
    rw [List.nil_append, List.cons_append, List.dropWhile_cons,
      if_neg (by simp [ha])]
    exact ⟨[], q, by simp⟩
  | cons d p' ih =>
    by_cases hd : wsChar d = true
    · rw [show (d :: p') ++ (a :: s) ++ q = d :: (p' ++ (a :: s) ++ q) from rfl,
        List.dropWhile_cons, if_pos hd]
      exact ih
    · rw [show (d :: p') ++ (a :: s) ++ q = d :: (p' ++ (a :: s) ++ q) from rfl,
        List.dropWhile_cons, if_neg hd]
      exact ⟨d :: p', q, rfl⟩

theorem occursIn_trimRight {a : Char} {s b : Str} (ha : wsChar a = false)
    (h : OccursIn (s ++ [a]) b) : OccursIn (s ++ [a]) (trimRight b) := by
  have h1 : OccursIn (a :: s.reverse) b.reverse := by
    have h0 := occursIn_rev h
    simpa using h0
  have h2 := occursIn_trimLeft ha h1
  have h3 := occursIn_rev h2
  simpa [trimRight, trimLeft] using h3

theorem strip_head_not_ws {l : Str} {c : Char} {r : Str}
    (h : strip l = c :: r) : wsChar c = false := by
  obtain ⟨q, hq⟩ := trimRight_prefix (trimLeft l)
  rw [show trimRight (trimLeft l) = strip l from rfl, h] at hq
  have h2 : l.dropWhile wsChar = c :: (r ++ q) := by simpa [trimLeft] using hq
  exact dropWhile_head_false h2

theorem strip_last_not_ws {l : Str} {r : Str} {c : Char}
    (h : strip l = r ++ [c]) : wsChar c = false := by
  have h2 : (trimLeft l).reverse.dropWhile wsChar = c :: r.reverse := by
    have h0 := congrArg List.reverse h
    simpa [strip, trimRight] using h0
  exact dropWhile_head_false h2

theorem occursIn_of_strip {x b : Str} (h : OccursIn x (strip b)) : OccursIn x b := by
  obtain ⟨p, q, hx⟩ := h
  obtain ⟨q2, hq2⟩ := trimRight_prefix (trimLeft b)
  refine ⟨b.takeWhile wsChar ++ p, q ++ q2, ?_⟩
  calc b = b.takeWhile wsChar ++ b.dropWhile wsChar :=
        (List.takeWhile_append_dropWhile wsChar b).symm
    _ = b.takeWhile wsChar ++ (strip b ++ q2) := by
        show _ = b.takeWhile wsChar ++ (trimRight (trimLeft b) ++ q2)
        rw [← hq2]
        rfl
    _ = b.takeWhile wsChar ++ ((p ++ x ++ q) ++ q2) := by rw [hx]
    _ = (b.takeWhile wsChar ++ p) ++ x ++ (q ++ q2) := by simp [List.append_assoc]

theorem occursIn_strip_iff (s b : Str) :
    OccursIn (strip s) b ↔ OccursIn (strip s) (strip b) := by
  constructor
  · intro h
    rcases hs : strip s with _ | ⟨c, t⟩
    · exact ⟨[], strip b, by simp⟩
    · rcases List.eq_nil_or_concat (c :: t) with hnil | ⟨t', c', hcat⟩
      · simp at hnil
      rw [List.concat_eq_append] at hcat
      · have hlast : wsChar c' = false := strip_last_not_ws (by rw [hs, hcat])
        have hhead : wsChar c = false := strip_head_not_ws hs
        rw [hs] at h
        have h1 : OccursIn (c :: t) (trimLeft b) := occursIn_trimLeft hhead h
        rw [hcat] at h1
        have h2 : OccursIn (t' ++ [c']) (trimRight (trimLeft b)) :=
          occursIn_trimRight hlast h1
        rw [hcat]
        exact h2
  · exact occursIn_of_strip

theorem hasSub_strip_iff (s block : Str) :
    hasSub (strip s) block = true ↔ OccursIn (strip s) (strip block) := by
  rw [hasSub_iff]
  exact occursIn_strip_iff s block

theorem pyEnumFrom_le {i : Nat} {x : α} :
    ∀ {l : List α} {n : Nat}, (i, x) ∈ pyEnumFrom n l → n ≤ i := by
  intro l
  induction l with
  | nil => intro n h; simp [pyEnumFrom] at h
  | cons y ys ih =>
    intro n h
    rcases List.mem_cons.mp h with h1 | h1
    · injection h1 with h2 _
      omega
    · have := ih h1
      omega

theorem pyEnumFrom_inj {i : Nat} {x y : α} :
    ∀ {l : List α} {n : Nat},
      (i, x) ∈ pyEnumFrom n l → (i, y) ∈ pyEnumFrom n l → x = y := by
  intro l
  induction l with
  | nil => intro n h; simp [pyEnumFrom] at h
  | cons z zs ih =>
    intro n hx hy
    rcases List.mem_cons.mp hx with h1 | h1 <;> rcases List.mem_cons.mp hy with h2 | h2
    · injection h1 with _ e1
      injection h2 with _ e2
      rw [e1, e2]
    · injection h1 with e1 _
      have := pyEnumFrom_le h2
      omega
    · injection h2 with e2 _
      have := pyEnumFrom_le h1
      omega
    · exact ih h1 h2

theorem pyEnumFrom_mem {i : Nat} {x : α} :
    ∀ {l : List α} {n : Nat}, (i, x) ∈ pyEnumFrom n l → x ∈ l := by
  intro l
  induction l with
  | nil => intro n h; simp [pyEnumFrom] at h
  | cons z zs ih =>
    intro n h
    rcases List.mem_cons.mp h with h1 | h1
    · injection h1 with _ e1
      rw [e1]
      exact List.mem_cons_self z zs
    · exact List.mem_cons_of_mem z (ih h1)

theorem mem_pyEnumFrom {x : α} :
    ∀ {l : List α} (n : Nat), x ∈ l → ∃ i, (i, x) ∈ pyEnumFrom n l := by
  intro l
  induction l with
  | nil => intro n h; simp at h
  | cons z zs ih =>
    intro n h
    rcases List.mem_cons.mp h with h1 | h1
    · exact ⟨n, by rw [h1]; exact List.mem_cons_self _ _⟩
    · obtain ⟨i, hi⟩ := ih (n + 1) h1
      exact ⟨i, List.mem_cons_of_mem _ hi⟩

theorem foldl_render (l : List Message) (acc : Str) :
    l.foldl (fun a m => a ++ renderMsg m) acc = acc ++ joinAll (l.map renderMsg) := by
  induction l generalizing acc with
  | nil => simp [joinAll]
  | cons m l ih => simp [joinAll, ih, List.append_assoc]

/-- C1: composing a prompt with history inclusion enabled includes exactly the
`min n 6` most recent messages of the history, in conversation order, each
rendered by `renderMsg` as `Human:`/`Assistant:` lines, and no earlier
message: the composed prompt is literally the summary block, then the history
block rendering only the final window `recent`, then the new prompt. -/
theorem C1_history_window (st : ConversationState) (p : Str) (include_summary : Bool) :
    ∃ earlier recent : List Message,
      st.messages = earlier ++ recent ∧
      recent.length = min st.messages.length 6 ∧
      composePrompt st p true include_summary =
        (if include_summary && !st.summary.isEmpty then
          lit "# Previous Conversation Summary\n" ++ st.summary ++ lit "\n\n"
         else []) ++
        (if st.messages.isEmpty then []
         else lit "# Previous Messages\n" ++ joinAll (recent.map renderMsg)
              ++ lit "# New Question\n") ++ p := by
  refine ⟨st.messages.take (st.messages.length - 6),
    st.messages.drop (st.messages.length - 6),
    (List.take_append_drop _ _).symm, ?_, ?_⟩
  · rw [List.length_drop]
    omega
  · simp only [composePrompt, foldl_render, Bool.true_and]
    by_cases hm : st.messages.isEmpty
    · simp [hm, List.append_assoc]
    · simp only [hm, Bool.not_false, if_true, Bool.not_true, if_false,
        Bool.false_eq_true]
      simp [List.append_assoc]

theorem runExchanges_length (es : List Exchange) :
    ∀ st : ConversationState,
      (runExchanges st es).messages.length = st.messages.length + 2 * es.length := by
  induction es with
  | nil => intro st; simp [runExchanges]
  | cons e es ih =>
    intro st
    simp only [runExchanges, List.foldl_cons]
    rw [show List.foldl runExchange (runExchange st e) es
        = runExchanges (runExchange st e) es from rfl, ih]
    simp [runExchange, ask_claude]
    omega

/-- C6: a completed `ask_claude` call appends exactly the user message with
the new prompt and then the assistant message with the extracted response
text, and refreshes `last_updated`; consequently, after `k` successful
exchanges from the empty state the message list has length `2 * k`. -/
theorem C6_exchange_appends_two (send : Str → Nat → Except Err ApiResponse)
    (st : ConversationState) (p : Str) (ih isum : Bool) (mt : Nat) (now : Str)
    (resp : ApiResponse)
    (h : send (composePrompt st p ih isum) mt = .ok resp) :
    ((ask_claude send st p ih isum mt now).1.messages
        = st.messages ++ [⟨.user, p⟩, ⟨.assistant, extractText resp⟩]
      ∧ (ask_claude send st p ih isum mt now).1.last_updated = now)
    ∧ ∀ (t : Str) (es : List Exchange),
        (runExchanges (emptyConversationState t) es).messages.length
          = 2 * es.length := by
  refine ⟨⟨?_, ?_⟩, ?_⟩
  · simp [ask_claude, h]
  · simp [ask_claude, h]
  · intro t es
    rw [runExchanges_length]
    simp [emptyConversationState]

theorem C6_witness :
    ((fun (_ : Str) (_ : Nat) =>
        (.ok ⟨lit "id0", lit "model0", [⟨lit "text", lit "hi"⟩]⟩ :
          Except Err ApiResponse))
        (composePrompt (emptyConversationState (lit "t0")) (lit "q0") true true) 1000
      = .ok ⟨lit "id0", lit "model0", [⟨lit "text", lit "hi"⟩]⟩)
    ∧ (((ask_claude
          (fun _ _ => .ok ⟨lit "id0", lit "model0", [⟨lit "text", lit "hi"⟩]⟩)
          (emptyConversationState (lit "t0")) (lit "q0") true true 1000
          (lit "t1")).1.messages
        = (emptyConversationState (lit "t0")).messages
            ++ [⟨.user, lit "q0"⟩,
                ⟨.assistant, extractText ⟨lit "id0", lit "model0",
                  [⟨lit "text", lit "hi"⟩]⟩⟩]
      ∧ (ask_claude
          (fun _ _ => .ok ⟨lit "id0", lit "model0", [⟨lit "text", lit "hi"⟩]⟩)
          (emptyConversationState (lit "t0")) (lit "q0") true true 1000
          (lit "t1")).1.last_updated = lit "t1")
      ∧ ∀ (t : Str) (es : List Exchange),
          (runExchanges (emptyConversationState t) es).messages.length
            = 2 * es.length) :=
  ⟨rfl, C6_exchange_appends_two _ _ _ _ _ _ _ _ rfl⟩

/-- C7: when the model call raises, the exchange appends nothing at all:
messages, summary and shared files are all left unchanged. -/
theorem C7_failed_exchange_no_append (send : Str → Nat → Except Err ApiResponse)
    (st : ConversationState) (p : Str) (ih isum : Bool) (mt : Nat) (now : Str)
    (e : Err) (h : send (composePrompt st p ih isum) mt = .error e) :
    (ask_claude send st p ih isum mt now).1.messages = st.messages
    ∧ (ask_claude send st p ih isum mt now).1.summary = st.summary
    ∧ (ask_claude send st p ih isum mt now).1.shared_files = st.shared_files := by
  refine ⟨?_, ?_, ?_⟩ <;> simp [ask_claude, h]

theorem C7_witness :
    ((fun (_ : Str) (_ : Nat) => (.error (lit "boom") : Except Err ApiResponse))
        (composePrompt ⟨[⟨.user, lit "m0"⟩], lit "s0", [lit "f0"], lit "t0"⟩
          (lit "q0") true true) 1000
      = .error (lit "boom"))
    ∧ ((ask_claude (fun _ _ => .error (lit "boom"))
          ⟨[⟨.user, lit "m0"⟩], lit "s0", [lit "f0"], lit "t0"⟩
          (lit "q0") true true 1000 (lit "t1")).1.messages
        = [⟨.user, lit "m0"⟩]
      ∧ (ask_claude (fun _ _ => .error (lit "boom"))
          ⟨[⟨.user, lit "m0"⟩], lit "s0", [lit "f0"], lit "t0"⟩
          (lit "q0") true true 1000 (lit "t1")).1.summary = lit "s0"
      ∧ (ask_claude (fun _ _ => .error (lit "boom"))
          ⟨[⟨.user, lit "m0"⟩], lit "s0", [lit "f0"], lit "t0"⟩
          (lit "q0") true true 1000 (lit "t1")).1.shared_files = [lit "f0"]) :=
  ⟨rfl, C7_failed_exchange_no_append _ _ _ _ _ _ _ _ rfl⟩

/-- C10: with at least two messages, a successful
`generate_conversation_summary` does not only overwrite `summary`: because it
routes through `ask_claude`, it also appends the summary request as a user
message and the generated summary text as an assistant message, and refreshes
`last_updated`. -/
theorem C10_summary_records_messages (send : Str → Nat → Except Err ApiResponse)
    (st : ConversationState) (now : Str) (resp : ApiResponse)
    (h2 : 2 ≤ st.messages.length)
    (hs : send (composePrompt st (summaryPromptOf st) false false) 1000 = .ok resp) :
    (generate_conversation_summary send st now).1.messages
      = st.messages ++ [⟨.user, summaryPromptOf st⟩, ⟨.assistant, extractText resp⟩]
    ∧ (generate_conversation_summary send st now).1.last_updated = now
    ∧ (generate_conversation_summary send st now).1.summary = extractText resp := by
  have hlt : ¬ st.messages.length < 2 := by omega
  refine ⟨?_, ?_, ?_⟩ <;>
    simp [generate_conversation_summary, if_neg hlt, ask_claude, hs]

theorem C10_witness :
    (2 ≤ (⟨[⟨.user, lit "a"⟩, ⟨.assistant, lit "b"⟩], [], [], lit "t0"⟩ :
        ConversationState).messages.length)
    ∧ ((fun (_ : Str) (_ : Nat) =>
          (.ok ⟨lit "id0", lit "model0", [⟨lit "text", lit "sum"⟩]⟩ :
            Except Err ApiResponse))
        (composePrompt ⟨[⟨.user, lit "a"⟩, ⟨.assistant, lit "b"⟩], [], [], lit "t0"⟩
          (summaryPromptOf
            ⟨[⟨.user, lit "a"⟩, ⟨.assistant, lit "b"⟩], [], [], lit "t0"⟩)
          false false) 1000
      = .ok ⟨lit "id0", lit "model0", [⟨lit "text", lit "sum"⟩]⟩)
    ∧ ((generate_conversation_summary
          (fun _ _ => .ok ⟨lit "id0", lit "model0", [⟨lit "text", lit "sum"⟩]⟩)
          ⟨[⟨.user, lit "a"⟩, ⟨.assistant, lit "b"⟩], [], [], lit "t0"⟩
          (lit "t1")).1.messages
        = (⟨[⟨.user, lit "a"⟩, ⟨.assistant, lit "b"⟩], [], [], lit "t0"⟩ :
            ConversationState).messages
          ++ [⟨.user, summaryPromptOf
                ⟨[⟨.user, lit "a"⟩, ⟨.assistant, lit "b"⟩], [], [], lit "t0"⟩⟩,
              ⟨.assistant, extractText ⟨lit "id0", lit "model0",
                [⟨lit "text", lit "sum"⟩]⟩⟩]
      ∧ (generate_conversation_summary
          (fun _ _ => .ok ⟨lit "id0", lit "model0", [⟨lit "text", lit "sum"⟩]⟩)
          ⟨[⟨.user, lit "a"⟩, ⟨.assistant, lit "b"⟩], [], [], lit "t0"⟩
          (lit "t1")).1.last_updated = lit "t1"
      ∧ (generate_conversation_summary
          (fun _ _ => .ok ⟨lit "id0", lit "model0", [⟨lit "text", lit "sum"⟩]⟩)
          ⟨[⟨.user, lit "a"⟩, ⟨.assistant, lit "b"⟩], [], [], lit "t0"⟩
          (lit "t1")).1.summary
        = extractText ⟨lit "id0", lit "model0", [⟨lit "text", lit "sum"⟩]⟩) :=
  ⟨by decide, rfl, C10_summary_records_messages _ _ _ _ (by decide) rfl⟩

/-- C4 (code-bug evaluation): loading from an absent file leaves the prior
in-memory state intact, against the documented fallback to a fresh empty
state; with a non-empty current state the result still has its messages, so
it is not the fresh empty state for any timestamp. -/
theorem C4_load_absent_keeps_state :
    load_conversation_state
        ⟨[⟨.user, lit "hello"⟩], lit "sum", [lit "f"], lit "t0"⟩ none
      = ⟨[⟨.user, lit "hello"⟩], lit "sum", [lit "f"], lit "t0"⟩
    ∧ (load_conversation_state
        ⟨[⟨.user, lit "hello"⟩], lit "sum", [lit "f"], lit "t0"⟩ none).messages ≠ []
    ∧ ∀ now : Str,
        load_conversation_state
            ⟨[⟨.user, lit "hello"⟩], lit "sum", [lit "f"], lit "t0"⟩ none
          ≠ emptyConversationState now := by
  refine ⟨rfl, by decide, ?_⟩
  intro now h
  have hm := congrArg ConversationState.messages h
  simp [load_conversation_state, emptyConversationState] at hm

/-- C9: the shared-file tracking step is idempotent: adding a path twice
leaves exactly one occurrence of it (given the set invariant of
`shared_files`, at most one prior occurrence), keeps all previous entries as
a prefix in their original order, and adds at most one entry. -/
theorem C9_track_idempotent (files : List Str) (p : Str)
    (h : files.count p ≤ 1) :
    trackSharedFile (trackSharedFile files p) p = trackSharedFile files p
    ∧ (trackSharedFile (trackSharedFile files p) p).count p = 1
    ∧ files <+: trackSharedFile (trackSharedFile files p) p
    ∧ (trackSharedFile (trackSharedFile files p) p).length ≤ files.length + 1 := by
  have hmem : p ∈ trackSharedFile files p := by
    by_cases hp : p ∈ files <;> simp [trackSharedFile, hp]
  have hidem : trackSharedFile (trackSharedFile files p) p
      = trackSharedFile files p := by
    show (if p ∈ trackSharedFile files p then trackSharedFile files p
          else trackSharedFile files p ++ [p]) = trackSharedFile files p
    rw [if_pos hmem]
  rw [hidem]
  refine ⟨rfl, ?_, ?_, ?_⟩
  · by_cases hp : p ∈ files
    · have h1 : 0 < files.count p := List.count_pos_iff.mpr hp
      simp only [trackSharedFile, if_pos hp]
      omega
    · simp [trackSharedFile, if_neg hp, List.count_eq_zero_of_not_mem hp]
  · by_cases hp : p ∈ files
    · simp [trackSharedFile, if_pos hp]
    · refine ⟨[p], ?_⟩
      simp [trackSharedFile, hp]
  · by_cases hp : p ∈ files <;> simp [trackSharedFile, hp]

theorem C9_witness :
    ([lit "a", lit "b"] : List Str).count (lit "b") ≤ 1
    ∧ (trackSharedFile (trackSharedFile [lit "a", lit "b"] (lit "b")) (lit "b")
        = trackSharedFile [lit "a", lit "b"] (lit "b")
      ∧ (trackSharedFile (trackSharedFile [lit "a", lit "b"] (lit "b"))
          (lit "b")).count (lit "b") = 1
      ∧ [lit "a", lit "b"] <+:
          trackSharedFile (trackSharedFile [lit "a", lit "b"] (lit "b")) (lit "b")
      ∧ (trackSharedFile (trackSharedFile [lit "a", lit "b"] (lit "b"))
          (lit "b")).length ≤ ([lit "a", lit "b"] : List Str).length + 1) :=
  ⟨by decide, C9_track_idempotent [lit "a", lit "b"] (lit "b") (by decide)⟩

/-- C3 (counterexample): the claim derives the base name by DISCARDING
characters outside the allowed set; on the heading `"a.b"` the code instead
replaces the dot with an underscore, so the two derivations differ. -/
theorem C3_counterexample :
    artifact_basename ⟨.markdown_section, lit "x", some (lit "a.b"), 0⟩
      ≠ spec_basename (lit "a.b") := by
  decide

/-- C3 (amended): with a heading, every character that is not alphanumeric,
hyphen or underscore (spaces included) becomes an underscore and the rest is
lower-cased, character by character; without a heading (or for a fenced-block
artifact) the base name is `artifact_<index>`. -/
theorem C3_amended_basename (c h : Str) (i : Nat) (hopt : Option Str) :
    artifact_basename ⟨.markdown_section, c, some h, i⟩
      = h.map (fun ch =>
          if ch.isAlphanum || ch == '-' || ch == '_' then ch.toLower else '_')
    ∧ artifact_basename ⟨.markdown_section, c, none, i⟩
      = lit "artifact_" ++ natToStr i
    ∧ artifact_basename ⟨.markdown_code_block, c, hopt, i⟩
      = lit "artifact_" ++ natToStr i := by
  refine ⟨?_, rfl, rfl⟩
  simp only [artifact_basename, List.map_map]
  congr 1
  funext ch
  by_cases hsp : ch = ' '
  · subst hsp
    decide
  · have hsp' : (ch == ' ') = false := beq_eq_false_iff_ne.mpr hsp
    by_cases hk : (ch.isAlphanum || ch == ' ' || ch == '-' || ch == '_') = true
    · have hk' : (ch.isAlphanum || ch == '-' || ch == '_') = true := by
        have hk2 := hk
        rw [hsp'] at hk2
        simpa using hk2
      simp [Function.comp, hk, hk', hsp']
    · have hk' : (ch.isAlphanum || ch == '-' || ch == '_') = false := by
        simp only [Bool.or_eq_true] at hk
        simp only [Bool.or_eq_false_iff]
        push_neg at hk
        simp only [Bool.not_eq_true] at hk ⊢
        tauto
      simp [Function.comp, hk, hk']

theorem scanArtifacts_spec (term : Str) (limit : Nat) (cid : Str) :
    ∀ (arts : List StoredArtifact) (results : List SearchHit),
      results.length < limit →
      (scanArtifacts term limit cid arts results).1.length ≤ limit
      ∧ ((scanArtifacts term limit cid arts results).2 = true
          ↔ (scanArtifacts term limit cid arts results).1.length = limit)
      ∧ ∃ new, (scanArtifacts term limit cid arts results).1 = results ++ new
          ∧ ∀ hit ∈ new, ∃ ct, hit.artifact.content = some ct
              ∧ hasSub term (lowerStr ct) = true := by
  intro arts
  induction arts with
  | nil =>
    intro results hlt
    refine ⟨by simpa [scanArtifacts] using hlt.le, ?_, [], by simp [scanArtifacts],
      by simp⟩
    simp only [scanArtifacts]
    constructor
    · intro h; cases h
    · intro h; omega
  | cons a rest ih =>
    intro results hlt
    rcases hc : a.content with _ | ct
    · simpa [scanArtifacts, hc] using ih results hlt
    · by_cases hm : hasSub term (lowerStr ct) = true
      · by_cases hstop : limit ≤ results.length + 1
        · have hred : scanArtifacts term limit cid (a :: rest) results
              = (results ++ [(⟨cid, a⟩ : SearchHit)], true) := by
            simp [scanArtifacts, hc, hm, hstop]
          rw [hred]
          have hl2 : (results ++ [(⟨cid, a⟩ : SearchHit)]).length = limit := by
            simp only [List.length_append, List.length_singleton]
            omega
          refine ⟨le_of_eq hl2, ⟨fun _ => hl2, fun _ => rfl⟩,
            [(⟨cid, a⟩ : SearchHit)], rfl, ?_⟩
          intro hit hmem
          rw [List.mem_singleton] at hmem
          subst hmem
          exact ⟨ct, hc, hm⟩
        · have hlt1 : (results ++ [(⟨cid, a⟩ : SearchHit)]).length < limit := by
            simp only [List.length_append, List.length_singleton]
            omega
          obtain ⟨h1, h2, new', h3, h4⟩ := ih (results ++ [(⟨cid, a⟩ : SearchHit)]) hlt1
          have hred : scanArtifacts term limit cid (a :: rest) results
              = scanArtifacts term limit cid rest
                  (results ++ [(⟨cid, a⟩ : SearchHit)]) := by
            simp [scanArtifacts, hc, hm, hstop]
          rw [hred]
          refine ⟨h1, h2, (⟨cid, a⟩ : SearchHit) :: new', by rw [h3]; simp, ?_⟩
          intro hit hmem
          rcases List.mem_cons.mp hmem with h5 | h5
          · subst h5
            exact ⟨ct, hc, hm⟩
          · exact h4 hit h5
      · have hm' : hasSub term (lowerStr ct) = false := by simpa using hm
        simpa [scanArtifacts, hc, hm'] using ih results hlt

theorem scanConversations_spec (term : Str) (limit : Nat) :
    ∀ (convs : List StoredConversation) (results : List SearchHit),
      results.length < limit →
      (scanConversations term limit convs results).length ≤ limit
      ∧ ∃ new, scanConversations term limit convs results = results ++ new
          ∧ ∀ hit ∈ new, ∃ ct, hit.artifact.content = some ct
              ∧ hasSub term (lowerStr ct) = true := by
  intro convs
  induction convs with
  | nil =>
    intro results hlt
    exact ⟨by simpa [scanConversations] using hlt.le, [],
      by simp [scanConversations], by simp⟩
  | cons c rest ih =>
    intro results hlt
    obtain ⟨h1, h2, new1, h3, h4⟩ :=
      scanArtifacts_spec term limit c.cid c.arts results hlt
    rcases hsc : scanArtifacts term limit c.cid c.arts results with ⟨results1, stop⟩
    rw [hsc] at h1 h2 h3
    have h1' : results1.length ≤ limit := h1
    have h3' : results1 = results ++ new1 := h3
    cases stop with
    | true =>
      have hred : scanConversations term limit (c :: rest) results = results1 := by
        simp [scanConversations, hsc]
      rw [hred]
      exact ⟨h1', new1, h3', h4⟩
    | false =>
      have hne : results1.length ≠ limit := by
        intro h
        exact absurd (h2.mpr h) (by simp)
      have hlt1 : results1.length < limit := lt_of_le_of_ne h1' hne
      obtain ⟨h5, new2, h6, h7⟩ := ih results1 hlt1
      have hred : scanConversations term limit (c :: rest) results
          = scanConversations term limit rest results1 := by
        simp [scanConversations, hsc]
      rw [hred]
      refine ⟨h5, new1 ++ new2, ?_, ?_⟩
      · rw [h6, h3', List.append_assoc]
      · intro hit hmem
        rcases List.mem_append.mp hmem with h8 | h8
        · exact h4 hit h8
        · exact h7 hit h8

theorem scanConversations_stop (term : Str) (limit : Nat) :
    ∀ (convs extra : List StoredConversation) (results : List SearchHit),
      results.length < limit →
      (scanConversations term limit convs results).length = limit →
      scanConversations term limit (convs ++ extra) results
        = scanConversations term limit convs results := by
  intro convs
  induction convs with
  | nil =>
    intro extra results hlt hlen
    simp only [scanConversations] at hlen
    omega
  | cons c rest ih =>
    intro extra results hlt hlen
    obtain ⟨h1, h2, new1, h3, h4⟩ :=
      scanArtifacts_spec term limit c.cid c.arts results hlt
    rcases hsc : scanArtifacts term limit c.cid c.arts results with ⟨results1, stop⟩
    rw [hsc] at h1 h2
    have h1' : results1.length ≤ limit := h1
    simp only [List.cons_append, scanConversations, hsc]
    cases stop with
    | true => rfl
    | false =>
      have hne : results1.length ≠ limit := by
        intro h
        exact absurd (h2.mpr h) (by simp)
      have hlt1 : results1.length < limit := lt_of_le_of_ne h1' hne
      have hlen1 : (scanConversations term limit rest results1).length = limit := by
        simpa [scanConversations, hsc] using hlen
      exact ih extra results1 hlt1 hlen1

/-- C5 (counterexample): with `limit = 0` and one matching artifact in the
store, the search returns one record, because the limit check only runs after
a match has been appended; so the result is not bounded by the limit. -/
theorem C5_counterexample :
    ¬ ((search_artifacts_by_content
          [⟨lit "c1", [⟨lit "a1", some (lit "xfooy")⟩]⟩] (lit "foo") 0).length ≤ 0) := by
  decide

/-- C5 (amended): for every positive limit, the search returns at most
`limit` records, the content of every returned record contains the
lower-cased term as a substring of its lower-cased content, and once the
result has reached `limit` records, conversations appended to the store are
never scanned: they do not change the result. -/
theorem C5_search_bounded (store : List StoredConversation) (search_term : Str)
    (limit : Nat) (hlim : 1 ≤ limit) :
    (search_artifacts_by_content store search_term limit).length ≤ limit
    ∧ (∀ hit ∈ search_artifacts_by_content store search_term limit,
        ∃ ct, hit.artifact.content = some ct
          ∧ OccursIn (lowerStr search_term) (lowerStr ct))
    ∧ ∀ extra,
        (search_artifacts_by_content store search_term limit).length = limit →
        search_artifacts_by_content (store ++ extra) search_term limit
          = search_artifacts_by_content store search_term limit := by
  have h0 : ([] : List SearchHit).length < limit := by simpa using hlim
  obtain ⟨h1, new, h2, h3⟩ :=
    scanConversations_spec (lowerStr search_term) limit store [] h0
  refine ⟨h1, ?_, ?_⟩
  · intro hit hmem
    rw [show search_artifacts_by_content store search_term limit
        = scanConversations (lowerStr search_term) limit store [] from rfl, h2] at hmem
    obtain ⟨ct, hct, hsub⟩ := h3 hit (by simpa using hmem)
    exact ⟨ct, hct, (hasSub_iff _ _).mp hsub⟩
  · intro extra hlen
    exact scanConversations_stop (lowerStr search_term) limit store extra [] h0 hlen

theorem C5_witness :
    1 ≤ 1
    ∧ ((search_artifacts_by_content
          [⟨lit "c1", [⟨lit "a1", some (lit "xFooy")⟩]⟩] (lit "foo") 1).length ≤ 1
      ∧ (∀ hit ∈ search_artifacts_by_content
            [⟨lit "c1", [⟨lit "a1", some (lit "xFooy")⟩]⟩] (lit "foo") 1,
          ∃ ct, hit.artifact.content = some ct
            ∧ OccursIn (lowerStr (lit "foo")) (lowerStr ct))
      ∧ ∀ extra,
          (search_artifacts_by_content
              [⟨lit "c1", [⟨lit "a1", some (lit "xFooy")⟩]⟩] (lit "foo") 1).length = 1 →
          search_artifacts_by_content
              ([⟨lit "c1", [⟨lit "a1", some (lit "xFooy")⟩]⟩] ++ extra) (lit "foo") 1
            = search_artifacts_by_content
                [⟨lit "c1", [⟨lit "a1", some (lit "xFooy")⟩]⟩] (lit "foo") 1) :=
  ⟨by decide,
    C5_search_bounded [⟨lit "c1", [⟨lit "a1", some (lit "xFooy")⟩]⟩]
      (lit "foo") 1 (by decide)⟩

theorem digitChar_toNat {d : Nat} (h : d < 10) : (digitChar d).toNat = 48 + d := by
  interval_cases d <;> decide

theorem natToStrAux_length :
    ∀ (fuel n : Nat) (acc : Str), n < fuel →
      acc.length < (natToStrAux fuel n acc).length := by
  intro fuel
  induction fuel with
  | zero => intro n acc h; omega
  | succ f ih =>
    intro n acc h
    by_cases h10 : n < 10
    · simp [natToStrAux, if_pos h10]
    · have hrec : n / 10 < f := by
        have := Nat.div_lt_self (show 0 < n by omega) (show 1 < 10 by omega)
        omega
      simp only [natToStrAux, if_neg h10]
      have := ih (n / 10) (digitChar (n % 10) :: acc) hrec
      simp only [List.length_cons] at this
      omega

theorem natToStr_length_pos (n : Nat) : 1 ≤ (natToStr n).length := by
  have := natToStrAux_length (n + 1) n [] (by omega)
  simpa [natToStr] using this

theorem natToStrAux_succ_ge (f n : Nat) (acc : Str) (h : ¬ n < 10) :
    natToStrAux (f + 1) n acc
      = natToStrAux f (n / 10) (digitChar (n % 10) :: acc) := by
  conv_lhs => unfold natToStrAux
  rw [if_neg h]

theorem parseFold_natToStrAux :
    ∀ (fuel n : Nat) (acc : Str), n < fuel →
      parseFold 0 (natToStrAux fuel n acc) = parseFold n acc := by
  intro fuel
  induction fuel with
  | zero => intro n acc h; omega
  | succ f ih =>
    intro n acc h
    by_cases h10 : n < 10
    · rw [show natToStrAux (f + 1) n acc = digitChar n :: acc by
        unfold natToStrAux
        rw [if_pos h10]]
      show parseFold (0 * 10 + ((digitChar n).toNat - 48)) acc = parseFold n acc
      rw [digitChar_toNat h10]
      congr 1
      omega
    · have hrec : n / 10 < f := by
        have := Nat.div_lt_self (show 0 < n by omega) (show 1 < 10 by omega)
        omega
      rw [natToStrAux_succ_ge f n acc h10]
      rw [ih (n / 10) (digitChar (n % 10) :: acc) hrec]
      show parseFold (n / 10 * 10 + ((digitChar (n % 10)).toNat - 48)) acc
          = parseFold n acc
      rw [digitChar_toNat (Nat.mod_lt _ (by omega))]
      congr 1
      have := Nat.div_add_mod n 10
      omega

theorem natToStr_inj {m n : Nat} (h : natToStr m = natToStr n) : m = n := by
  have hm : parseFold 0 (natToStr m) = m :=
    calc parseFold 0 (natToStr m) = parseFold 0 (natToStrAux (m + 1) m []) := rfl
      _ = parseFold m [] := parseFold_natToStrAux (m + 1) m [] (by omega)
      _ = m := rfl
  have hn : parseFold 0 (natToStr n) = n :=
    calc parseFold 0 (natToStr n) = parseFold 0 (natToStrAux (n + 1) n []) := rfl
      _ = parseFold n [] := parseFold_natToStrAux (n + 1) n [] (by omega)
      _ = n := rfl
  rw [h] at hm
  exact hm.symm.trans hn

theorem basePath_ne_candPath (folder stem : Str) (k : Nat) :
    pathJoin folder (stem ++ lit ".md") ≠ pathJoin folder (candName stem k) := by
  intro h
  have hl := congrArg List.length h
  simp only [pathJoin, candName, List.length_append, List.length_cons] at hl
  have hpos := natToStr_length_pos k
  omega

theorem candPath_inj (folder stem : Str) (i j : Nat)
    (h : pathJoin folder (candName stem i) = pathJoin folder (candName stem j)) :
    i = j := by
  have h0 : '/' :: candName stem i = '/' :: candName stem j :=
    List.append_cancel_left h
  have h1 : candName stem i = candName stem j := by injection h0
  have h2 : stem ++ ('_' :: natToStr i) = stem ++ ('_' :: natToStr j) :=
    List.append_cancel_right
      (show (stem ++ ('_' :: natToStr i)) ++ lit ".md"
          = (stem ++ ('_' :: natToStr j)) ++ lit ".md" from h1)
  have h3 : '_' :: natToStr i = '_' :: natToStr j := List.append_cancel_left h2
  injection h3 with _ h4
  exact natToStr_inj h4

theorem resolveLoop_least (taken : List Str) (folder stem : Str) (m : Nat) :
    ∀ (fuel counter : Nat), counter ≤ m → m < counter + fuel →
      (∀ j, counter ≤ j → j < m → pathJoin folder (candName stem j) ∈ taken) →
      pathJoin folder (candName stem m) ∉ taken →
      resolveLoop taken folder stem counter fuel
        = pathJoin folder (candName stem m) := by
  intro fuel
  induction fuel with
  | zero => intro counter h1 h2 _ _; omega
  | succ f ih =>
    intro counter h1 h2 hall hfree
    by_cases hcm : counter = m
    · subst hcm
      simp [resolveLoop, hfree]
    · have hcc : pathJoin folder (candName stem counter) ∈ taken :=
        hall counter le_rfl (by omega)
      simp only [resolveLoop, if_pos hcc]
      exact ih (counter + 1) (by omega) (by omega)
        (fun j hj1 hj2 => hall j (by omega) hj2) hfree

theorem resolveLoop_free (taken : List Str) (folder stem : Str) :
    ∀ (fuel counter : Nat),
      (∃ k, counter ≤ k ∧ k < counter + fuel ∧
        pathJoin folder (candName stem k) ∉ taken) →
      resolveLoop taken folder stem counter fuel ∉ taken
      ∧ ∃ m, resolveLoop taken folder stem counter fuel
          = pathJoin folder (candName stem m) := by
  intro fuel
  induction fuel with
  | zero =>
    rintro counter ⟨k, h1, h2, _⟩
    omega
  | succ f ih =>
    rintro counter ⟨k, h1, h2, h3⟩
    by_cases hc : pathJoin folder (candName stem counter) ∈ taken
    · have hk : counter + 1 ≤ k := by
        rcases Nat.eq_or_lt_of_le h1 with rfl | h
        · exact absurd hc h3
        · omega
      simp only [resolveLoop, if_pos hc]
      exact ih (counter + 1) ⟨k, hk, by omega, h3⟩
    · simp only [resolveLoop, if_neg hc]
      exact ⟨hc, counter, rfl⟩

theorem free_candidate_exists (taken : List Str) (folder stem : Str) (counter : Nat) :
    ∃ k, counter ≤ k ∧ k < counter + (taken.length + 1) ∧
      pathJoin folder (candName stem k) ∉ taken := by
  by_contra hcon
  push_neg at hcon
  have hinj : Function.Injective (fun j : Fin (taken.length + 1) =>
      pathJoin folder (candName stem (counter + j))) := by
    intro i j hij
    have h := candPath_inj folder stem _ _ hij
    exact Fin.ext (by omega)
  have hsub : (Finset.univ.image (fun j : Fin (taken.length + 1) =>
      pathJoin folder (candName stem (counter + j)))) ⊆ taken.toFinset := by
    intro x hx
    rw [Finset.mem_image] at hx
    obtain ⟨j, _, hj⟩ := hx
    have hjl := j.isLt
    rw [List.mem_toFinset, ← hj]
    exact hcon (counter + j) (by omega) (by omega)
  have hcard := Finset.card_le_card hsub
  rw [Finset.card_image_of_injective _ hinj, Finset.card_univ, Fintype.card_fin]
    at hcard
  have htf := taken.toFinset_card_le
  omega

theorem resolve_filename_spec (taken : List Str) (folder stem : Str) :
    resolve_filename taken folder stem ∉ taken
    ∧ ∃ q, resolve_filename taken folder stem = q ++ lit ".md" := by
  unfold resolve_filename
  by_cases hb : pathJoin folder (stem ++ lit ".md") ∈ taken
  · simp only [if_pos hb]
    obtain ⟨k, hk1, hk2, hk3⟩ := free_candidate_exists taken folder stem 1
    obtain ⟨hfree, m, hshape⟩ :=
      resolveLoop_free taken folder stem (taken.length + 1) 1 ⟨k, hk1, hk2, hk3⟩
    refine ⟨hfree, folder ++ '/' :: (stem ++ '_' :: natToStr m), ?_⟩
    rw [hshape]
    simp [pathJoin, candName]
  · simp only [if_neg hb]
    refine ⟨hb, folder ++ '/' :: stem, ?_⟩
    simp [pathJoin]

theorem runExport_fresh (folder : Str) :
    ∀ (arts : List Artifact) (taken : List Str),
      (∀ p ∈ runExport folder arts taken, p ∉ taken)
      ∧ (runExport folder arts taken).Nodup := by
  intro arts
  induction arts with
  | nil => intro taken; simp [runExport]
  | cons a rest ih =>
    intro taken
    obtain ⟨hfree, _⟩ := resolve_filename_spec taken folder (artifact_basename a)
    have hred : runExport folder (a :: rest) taken
        = resolve_filename taken folder (artifact_basename a)
          :: runExport folder rest
              (resolve_filename taken folder (artifact_basename a) :: taken) := by
      simp [runExport, save_artifact]
    obtain ⟨ihf, ihn⟩ :=
      ih (resolve_filename taken folder (artifact_basename a) :: taken)
    rw [hred]
    constructor
    · intro p hp
      rcases List.mem_cons.mp hp with rfl | hp
      · exact hfree
      · intro hq
        exact ihf p hp (List.mem_cons_of_mem _ hq)
    · refine List.nodup_cons.mpr ⟨?_, ihn⟩
      intro hq
      exact ihf _ hq (List.mem_cons_self _ _)

theorem runExport_md (folder : Str) :
    ∀ (arts : List Artifact) (taken : List Str),
      ∀ p ∈ runExport folder arts taken, ∃ q, p = q ++ lit ".md" := by
  intro arts
  induction arts with
  | nil => intro taken p hp; simp [runExport] at hp
  | cons a rest ih =>
    intro taken p hp
    obtain ⟨_, hshape⟩ := resolve_filename_spec taken folder (artifact_basename a)
    have hred : runExport folder (a :: rest) taken
        = resolve_filename taken folder (artifact_basename a)
          :: runExport folder rest
              (resolve_filename taken folder (artifact_basename a) :: taken) := by
      simp [runExport, save_artifact]
    rw [hred] at hp
    rcases List.mem_cons.mp hp with rfl | hp
    · exact hshape
    · exact ih _ p hp

theorem resolve_at_step (folder stem : Str) (taken : List Str)
    (hclean0 : pathJoin folder (stem ++ lit ".md") ∉ taken)
    (hclean1 : ∀ k, pathJoin folder (candName stem k) ∉ taken) (i : Nat) :
    resolve_filename
        (((List.range i).map (expectedName folder stem)).reverse ++ taken)
        folder stem
      = expectedName folder stem i := by
  have hmem_iff : ∀ x,
      x ∈ ((List.range i).map (expectedName folder stem)).reverse ++ taken
        ↔ (∃ j, j < i ∧ expectedName folder stem j = x) ∨ x ∈ taken := by
    intro x
    simp [List.mem_append, List.mem_reverse, List.mem_map, List.mem_range]
  cases i with
  | zero =>
    have hnb : pathJoin folder (stem ++ lit ".md")
        ∉ ((List.range 0).map (expectedName folder stem)).reverse ++ taken := by
      simpa using hclean0
    simp only [resolve_filename, if_neg hnb]
    simp [expectedName]
  | succ k =>
    have hb_in : pathJoin folder (stem ++ lit ".md")
        ∈ ((List.range (k + 1)).map (expectedName folder stem)).reverse ++ taken := by
      apply (hmem_iff _).mpr
      left
      exact ⟨0, by omega, by simp [expectedName]⟩
    simp only [resolve_filename, if_pos hb_in]
    have hexp : expectedName folder stem (k + 1)
        = pathJoin folder (candName stem (k + 1)) := by
      simp [expectedName]
    rw [hexp]
    apply resolveLoop_least
    · omega
    · have hdl : (((List.range (k + 1)).map (expectedName folder stem)).reverse
          ++ taken).length = (k + 1) + taken.length := by
        simp
      omega
    · intro j h1 h2
      apply (hmem_iff _).mpr
      left
      refine ⟨j, by omega, ?_⟩
      simp [expectedName, show j ≠ 0 by omega]
    · intro hmem
      rcases (hmem_iff _).mp hmem with ⟨j, hj, hx⟩ | hx
      · rcases Nat.eq_zero_or_pos j with rfl | hj0
        · rw [expectedName, if_pos rfl] at hx
          exact basePath_ne_candPath folder stem (k + 1) hx
        · rw [expectedName, if_neg (by omega)] at hx
          have := candPath_inj folder stem _ _ hx
          omega
      · exact hclean1 (k + 1) hx

theorem runExport_seq_aux (folder stem : Str) (taken : List Str)
    (hclean0 : pathJoin folder (stem ++ lit ".md") ∉ taken)
    (hclean1 : ∀ k, pathJoin folder (candName stem k) ∉ taken) :
    ∀ (arts : List Artifact), (∀ a ∈ arts, artifact_basename a = stem) →
      ∀ i : Nat,
        runExport folder arts
            (((List.range i).map (expectedName folder stem)).reverse ++ taken)
          = (List.range' i arts.length).map (expectedName folder stem) := by
  intro arts
  induction arts with
  | nil => intro _ i; simp [runExport]
  | cons a rest ih =>
    intro hb i
    have hba : artifact_basename a = stem := hb a (List.mem_cons_self _ _)
    have hres := resolve_at_step folder stem taken hclean0 hclean1 i
    have hred : runExport folder (a :: rest)
        (((List.range i).map (expectedName folder stem)).reverse ++ taken)
        = expectedName folder stem i
          :: runExport folder rest
              (expectedName folder stem i
                :: (((List.range i).map (expectedName folder stem)).reverse
                    ++ taken)) := by
      simp [runExport, save_artifact, hba, hres]
    have hdisk : expectedName folder stem i
          :: (((List.range i).map (expectedName folder stem)).reverse ++ taken)
        = ((List.range (i + 1)).map (expectedName folder stem)).reverse ++ taken := by
      rw [List.range_succ, List.map_append, List.reverse_append]
      simp
    rw [hred, hdisk, ih (fun a2 ha2 => hb a2 (List.mem_cons_of_mem _ ha2)) (i + 1)]
    rw [List.length_cons, List.range'_succ, List.map_cons]

/-- C8: within one export run of artifacts sharing one derived base name, the
resolved destination paths are pairwise distinct, every path carries the
`.md` extension, and on a disk holding none of the candidate names the
resolved paths are exactly `base.md`, `base_1.md`, `base_2.md`, ... in
creation order. -/
theorem C8_no_collisions (folder stem : Str) (taken : List Str)
    (arts : List Artifact) (hbase : ∀ a ∈ arts, artifact_basename a = stem) :
    (runExport folder arts taken).Nodup
    ∧ (∀ p ∈ runExport folder arts taken, ∃ q, p = q ++ lit ".md")
    ∧ ((pathJoin folder (stem ++ lit ".md") ∉ taken
          ∧ ∀ k, pathJoin folder (candName stem k) ∉ taken) →
        runExport folder arts taken
          = (List.range arts.length).map (expectedName folder stem)) := by
  refine ⟨(runExport_fresh folder arts taken).2, runExport_md folder arts taken, ?_⟩
  rintro ⟨hc0, hc1⟩
  have h := runExport_seq_aux folder stem taken hc0 hc1 arts hbase 0
  simpa [List.range_eq_range'] using h

theorem C8_witness :
    (∀ a ∈ [(⟨.markdown_section, lit "c", some (lit "Plan"), 0⟩ : Artifact),
            ⟨.markdown_section, lit "c", some (lit "Plan"), 1⟩,
            ⟨.markdown_section, lit "c", some (lit "Plan"), 2⟩],
        artifact_basename a = lit "plan")
    ∧ ((runExport (lit "extracted_artifacts")
          [(⟨.markdown_section, lit "c", some (lit "Plan"), 0⟩ : Artifact),
           ⟨.markdown_section, lit "c", some (lit "Plan"), 1⟩,
           ⟨.markdown_section, lit "c", some (lit "Plan"), 2⟩] []).Nodup
      ∧ (∀ p ∈ runExport (lit "extracted_artifacts")
            [(⟨.markdown_section, lit "c", some (lit "Plan"), 0⟩ : Artifact),
             ⟨.markdown_section, lit "c", some (lit "Plan"), 1⟩,
             ⟨.markdown_section, lit "c", some (lit "Plan"), 2⟩] [],
          ∃ q, p = q ++ lit ".md")
      ∧ ((pathJoin (lit "extracted_artifacts") (lit "plan" ++ lit ".md")
            ∉ ([] : List Str)
          ∧ ∀ k, pathJoin (lit "extracted_artifacts") (candName (lit "plan") k)
              ∉ ([] : List Str)) →
        runExport (lit "extracted_artifacts")
            [(⟨.markdown_section, lit "c", some (lit "Plan"), 0⟩ : Artifact),
             ⟨.markdown_section, lit "c", some (lit "Plan"), 1⟩,
             ⟨.markdown_section, lit "c", some (lit "Plan"), 2⟩] []
          = (List.range
              ([(⟨.markdown_section, lit "c", some (lit "Plan"), 0⟩ : Artifact),
                ⟨.markdown_section, lit "c", some (lit "Plan"), 1⟩,
                ⟨.markdown_section, lit "c", some (lit "Plan"), 2⟩] :
                  List Artifact).length).map
              (expectedName (lit "extracted_artifacts") (lit "plan")))) :=
  ⟨by decide,
    C8_no_collisions (lit "extracted_artifacts") (lit "plan") []
      [⟨.markdown_section, lit "c", some (lit "Plan"), 0⟩,
       ⟨.markdown_section, lit "c", some (lit "Plan"), 1⟩,
       ⟨.markdown_section, lit "c", some (lit "Plan"), 2⟩] (by decide)⟩

/-- C2: a heading-section artifact produced by the heading pass is in the
output of `extract_markdown` exactly when no fenced-block artifact of the
same text has the trimmed section body as a substring of its content; and
every fenced-block artifact is always returned. -/
theorem C2_dedup (text : Str) (i : Nat) (hd bd : Str)
    (hmem : (i, (hd, bd)) ∈ pyEnum (findHeadingBlocks text)) :
    (mkSectionArtifact hd bd i ∈ extract_markdown text
      ↔ ¬ ∃ a, a ∈ extract_markdown text
          ∧ a.type = ArtifactType.markdown_code_block
          ∧ OccursIn (strip bd) a.content)
    ∧ ∀ j block, (j, block) ∈ pyEnum (findCodeBlocks text) →
        mkCodeArtifact block j ∈ extract_markdown text := by
  have hcode_mem : ∀ j block, (j, block) ∈ pyEnum (findCodeBlocks text) →
      mkCodeArtifact block j ∈ extract_markdown text := by
    intro j block hjb
    exact List.mem_append_left _ (List.mem_map.mpr ⟨(j, block), hjb, rfl⟩)
  refine ⟨?_, hcode_mem⟩
  have hiff1 : mkSectionArtifact hd bd i ∈ extract_markdown text
      ↔ (!((findCodeBlocks text).any
          (fun block => hasSub (strip bd) block))) = true := by
    constructor
    · intro hin
      have hin' : mkSectionArtifact hd bd i ∈
          ((pyEnum (findCodeBlocks text)).map (fun p => mkCodeArtifact p.2 p.1))
          ++ (((pyEnum (findHeadingBlocks text)).filter
                (fun p => !((findCodeBlocks text).any
                  (fun block => hasSub (strip p.2.2) block)))).map
              (fun p => mkSectionArtifact p.2.1 p.2.2 p.1)) := hin
      rcases List.mem_append.mp hin' with hc | hh
      · exfalso
        obtain ⟨p, _, heq⟩ := List.mem_map.mp hc
        exact absurd (congrArg Artifact.type heq)
          (by simp [mkCodeArtifact, mkSectionArtifact])
      · obtain ⟨⟨j2, hd2, bd2⟩, hpf, heq⟩ := List.mem_map.mp hh
        obtain ⟨hpe, hpred⟩ := List.mem_filter.mp hpf
        have hj2 : j2 = i := congrArg Artifact.index heq
        subst hj2
        have hp2 : (hd2, bd2) = (hd, bd) := pyEnumFrom_inj hpe hmem
        injection hp2 with e1 e2
        subst e1
        subst e2
        exact hpred
    · intro hpred
      have hfil : (i, (hd, bd)) ∈ (pyEnum (findHeadingBlocks text)).filter
          (fun p => !((findCodeBlocks text).any
            (fun block => hasSub (strip p.2.2) block))) :=
        List.mem_filter.mpr ⟨hmem, hpred⟩
      exact List.mem_append_right _ (List.mem_map.mpr ⟨(i, (hd, bd)), hfil, rfl⟩)
  rw [hiff1]
  constructor
  · intro hb hex
    obtain ⟨a, ha, htype, hocc⟩ := hex
    have ha' : a ∈
        ((pyEnum (findCodeBlocks text)).map (fun p => mkCodeArtifact p.2 p.1))
        ++ (((pyEnum (findHeadingBlocks text)).filter
              (fun p => !((findCodeBlocks text).any
                (fun block => hasSub (strip p.2.2) block)))).map
            (fun p => mkSectionArtifact p.2.1 p.2.2 p.1)) := ha
    rcases List.mem_append.mp ha' with hc | hh
    · obtain ⟨⟨j, block⟩, hjb, heq⟩ := List.mem_map.mp hc
      have hcont : a.content = strip block := by
        rw [← heq]
        rfl
      have hsub2 : hasSub (strip bd) block = true :=
        (hasSub_strip_iff bd block).mpr (hcont ▸ hocc)
      have hany : (findCodeBlocks text).any
          (fun block => hasSub (strip bd) block) = true :=
        List.any_eq_true.mpr ⟨block, pyEnumFrom_mem hjb, hsub2⟩
      rw [hany] at hb
      simp at hb
    · obtain ⟨p, _, heq⟩ := List.mem_map.mp hh
      rw [← heq] at htype
      simp [mkSectionArtifact] at htype
  · intro hnone
    by_contra hb
    have hany : (findCodeBlocks text).any
        (fun block => hasSub (strip bd) block) = true := by
      rcases Bool.eq_false_or_eq_true
        ((findCodeBlocks text).any (fun block => hasSub (strip bd) block))
        with h | h
      · exact h
      · rw [h] at hb
        simp at hb
    obtain ⟨block, hbm, hsub⟩ := List.any_eq_true.mp hany
    obtain ⟨j, hj⟩ := mem_pyEnumFrom 0 hbm
    exact hnone ⟨mkCodeArtifact block j, hcode_mem j block hj, rfl,
      (hasSub_strip_iff bd block).mp hsub⟩

theorem C2_witness :
    ((0, (lit "B", lit "C"))
        ∈ pyEnum (findHeadingBlocks (lit "```markdown\nA\n```\n# B\nC")))
    ∧ ((mkSectionArtifact (lit "B") (lit "C") 0
          ∈ extract_markdown (lit "```markdown\nA\n```\n# B\nC")
        ↔ ¬ ∃ a, a ∈ extract_markdown (lit "```markdown\nA\n```\n# B\nC")
            ∧ a.type = ArtifactType.markdown_code_block
            ∧ OccursIn (strip (lit "C")) a.content)
      ∧ ∀ j block,
          (j, block) ∈ pyEnum (findCodeBlocks (lit "```markdown\nA\n```\n# B\nC")) →
          mkCodeArtifact block j
            ∈ extract_markdown (lit "```markdown\nA\n```\n# B\nC")) :=
  ⟨by decide, C2_dedup (lit "```markdown\nA\n```\n# B\nC") 0 (lit "B") (lit "C")
    (by decide)⟩
